import Mathlib

set_option maxRecDepth 4000

/-!
# Verification of the Bernoulli law-of-large-numbers simulator

Shallow embedding of the two Streamlit scripts
`src/law_large_numbers.py` (seeded variant) and
`src/law_large_numbers3.py` (unseeded, log-scale variant).

The simulation core of both scripts is the loop

    for n in n_values:
        successes = rng.binomial(n=n, p=p)
        result = successes / n
        abs_diff = abs(result - p)
        rows.append({"n": n, "result": result, "|result - p|": abs_diff})

The pseudo-random generator `rng` and its method `binomial` come from
numpy, an external library; they are embedded as an abstract stateful
sampler `binom : σ → ℕ → ℚ → ℕ × σ` (generator state, sample size,
probability ↦ drawn successes, next generator state), constrained only
by the Binomial contract the spec states (`BinomialSpec`).

The loop is embedded twice: `simLoop`/`simLoop3` idealize the arithmetic
to exact rationals `ℚ` and serve only the structural claims (row count
and order, determinism, variant equivalence), which are insensitive to
rounding; `simLoopF` embeds the same source lines under the faithful
IEEE-754 binary64 semantics (`float64`, `py_div`: round to nearest, ties
to even, 53-bit significand), and every claim about the stored numeric
values (`result`, `abs_diff`) is settled against it.  The development
proves the rounding model's normalization correct (`floorLog2_correct`)
and derives monotonicity of the rounding (`float64_mono`) on the
model's fuel domain (numerator and denominator below `2 ^ 1100`), which
covers every value a program run produces.
-/

/-- One element of `rows` in either script: the dict
`{"n": n, "result": result, "|result - p|": abs_diff}`. -/
structure TrialRow where
  n : ℕ
  result : ℚ
  abs_diff : ℚ
  deriving Repr, DecidableEq

/-- Embedding of line 22 of `src/law_large_numbers.py`:
`n_values = [10, 50, 100, 1000] + ([10_000_000] if include_big_n else [])`. -/
def n_values (include_big_n : Bool) : List ℕ :=
  [10, 50, 100, 1000] ++ (if include_big_n then [10000000] else [])

/-- Embedding of line 27 of `src/law_large_numbers3.py` (textually the same
assignment as in the seeded variant):
`n_values = [10, 50, 100, 1000] + ([10_000_000] if include_big_n else [])`. -/
def n_values3 (include_big_n : Bool) : List ℕ :=
  [10, 50, 100, 1000] ++ (if include_big_n then [10000000] else [])

/-- Embedding of the loop structure of `src/law_large_numbers.py`,
lines 30–35, with the arithmetic idealized to exact rationals (the
spec's real-number data model): starting from generator state `g`, for
each `n` draw `successes`, compute `result = successes / n` and
`abs_diff = abs(result - p)`, and append the row.  The source's `result`
and `abs_diff` are Python binary64 floats; `simLoopF` below embeds the
same lines with the faithful IEEE-754 arithmetic.  This idealized loop
is used only for claims about row structure, ordering and determinism,
which do not depend on the arithmetic; claims about the stored numeric
values are settled against `simLoopF`. -/
def simLoop {σ : Type} (binom : σ → ℕ → ℚ → ℕ × σ) (p : ℚ) :
    List ℕ → σ → List TrialRow × σ
  | [], g => ([], g)
  | n :: ns, g =>
    let d := binom g n p
    let result : ℚ := (d.1 : ℚ) / (n : ℚ)
    let abs_diff : ℚ := |result - p|
    let rest := simLoop binom p ns d.2
    (⟨n, result, abs_diff⟩ :: rest.1, rest.2)

/-- Embedding of the loop structure of `src/law_large_numbers3.py`,
lines 35–40 (textually identical to the loop of the seeded variant),
with the arithmetic idealized to exact rationals exactly as in
`simLoop`; used only for the structural variant-equivalence claim. -/
def simLoop3 {σ : Type} (binom : σ → ℕ → ℚ → ℕ × σ) (p : ℚ) :
    List ℕ → σ → List TrialRow × σ
  | [], g => ([], g)
  | n :: ns, g =>
    let d := binom g n p
    let result : ℚ := (d.1 : ℚ) / (n : ℚ)
    let abs_diff : ℚ := |result - p|
    let rest := simLoop3 binom p ns d.2
    (⟨n, result, abs_diff⟩ :: rest.1, rest.2)

/-- The sequence of `successes` values drawn by the simulation loop
(the successive results of `rng.binomial(n=n, p=p)` at line 32 of
`src/law_large_numbers.py`), in loop order. -/
def successSeq {σ : Type} (binom : σ → ℕ → ℚ → ℕ × σ) (p : ℚ) :
    List ℕ → σ → List ℕ
  | [], _ => []
  | n :: ns, g =>
    let d := binom g n p
    d.1 :: successSeq binom p ns d.2

/-- Embedding of the run branch of `src/law_large_numbers.py`
(lines 27–35): the seed field always holds an integer
(`st.number_input("Random seed (optional)", value=42, step=1)`, default
42), the generator is created by `np.random.default_rng(int(seed))`
(line 28, embedded as the abstract `default_rng : ℤ → σ`), and the loop
above produces the rows.  This variant has no process-entropy input:
the integer seed is always passed to the generator. -/
def run_seeded {σ : Type} (binom : σ → ℕ → ℚ → ℕ × σ) (default_rng : ℤ → σ)
    (seed : ℤ) (p : ℚ) (include_big_n : Bool) : List TrialRow :=
  (simLoop binom p (n_values include_big_n) (default_rng seed)).1

/-- Embedding of the run branch of `src/law_large_numbers3.py`
(lines 32–40): the generator is created by `np.random.default_rng()`
with no seed (line 33), i.e. seeded from process entropy, embedded as an
arbitrary initial generator state `g0`. -/
def run_unseeded {σ : Type} (binom : σ → ℕ → ℚ → ℕ × σ) (g0 : σ)
    (p : ℚ) (include_big_n : Bool) : List TrialRow :=
  (simLoop3 binom p (n_values3 include_big_n) g0).1

/-- Modelled from the spec: the contract of numpy's binomial sampler
`rng.binomial(n=n, p=p)`, whose implementation is not part of this
repository.  The spec states that `successes` is an "integer in [0,n],
drawn once", that "`p = 0.0` must yield `successes = 0` for every `n`
(deterministically, since Binomial(n,0) = 0 always)", and that
"`p = 1.0` must yield `successes = n` for every `n`". -/
structure BinomialSpec {σ : Type} (binom : σ → ℕ → ℚ → ℕ × σ) : Prop where
  le_n : ∀ g n p, 0 ≤ p → p ≤ 1 → (binom g n p).1 ≤ n
  p_zero : ∀ g n, (binom g n 0).1 = 0
  p_one : ∀ g n, (binom g n 1).1 = n

/-- A concrete sampler satisfying `BinomialSpec`, used to instantiate
witnesses: it deterministically returns a possible Binomial outcome
(`0` at `p = 0`, `n` at `p = 1`, `min 1 n` otherwise). -/
def oneSampler : Unit → ℕ → ℚ → ℕ × Unit := fun g n p =>
  (if p = 0 then 0 else if p = 1 then n else min 1 n, g)

/-- A second concrete sampler satisfying `BinomialSpec`, used for
counterexamples needing the extreme draw `successes = n` (a possible
Binomial outcome for every `p > 0`). -/
def maxSampler : Unit → ℕ → ℚ → ℕ × Unit := fun g n p =>
  (if p = 0 then 0 else n, g)

/-- Round a rational to the nearest integer, ties to even (the IEEE-754
rounding direction `roundTiesToEven` applied to an integer target). -/
def rne (x : ℚ) : ℤ :=
  let f := ⌊x⌋
  if x - f < 1/2 then f
  else if (1:ℚ)/2 < x - f then f + 1
  else if f % 2 = 0 then f else f + 1

/-- Base-2 floor logarithm on `ℕ` by structural recursion on a fuel
argument (`nlog2 fuel n = ⌊log₂ n⌋` for `1 ≤ n < 2 ^ fuel`; the fuel
`1100` used below amply covers every numerator and denominator arising
in this development). -/
def nlog2 : ℕ → ℕ → ℕ
  | 0, _ => 0
  | fuel + 1, n => if n ≤ 1 then 0 else nlog2 fuel (n / 2) + 1

/-- Multiply a rational by `2 ^ k` for a (possibly negative) integer
exponent `k`. -/
def shl (q : ℚ) (k : ℤ) : ℚ :=
  if 0 ≤ k then q * ((2 ^ k.toNat : ℤ) : ℚ) else q / ((2 ^ (-k).toNat : ℤ) : ℚ)

/-- Base-2 floor logarithm of a positive rational `q`: the bit lengths
of numerator and denominator determine `⌊log₂ q⌋` up to one, and a
single comparison with `2 ^ e₀` settles it. -/
def floorLog2 (q : ℚ) : ℤ :=
  if shl 1 ((nlog2 1100 q.num.toNat : ℤ) - (nlog2 1100 q.den : ℤ)) ≤ q
  then (nlog2 1100 q.num.toNat : ℤ) - (nlog2 1100 q.den : ℤ)
  else (nlog2 1100 q.num.toNat : ℤ) - (nlog2 1100 q.den : ℤ) - 1

/-- IEEE-754 binary64 rounding (round to nearest, ties to even, 53-bit
significand) of a positive rational: scale into `[2^52, 2^53)`, round to
an integer significand, and scale back.  Overflow and subnormals are not
modelled; every value this development applies it to is a normal
binary64 value. -/
def float64pos (q : ℚ) : ℚ :=
  shl ((rne (shl q (52 - floorLog2 q)) : ℤ) : ℚ) (floorLog2 q - 52)

/-- IEEE-754 binary64 rounding of a rational (see `float64pos`). -/
def float64 (q : ℚ) : ℚ :=
  if q = 0 then 0 else if q < 0 then -float64pos (-q) else float64pos q

/-- Embedding of line 33 of `src/law_large_numbers.py`,
`result = successes / n`, under Python's actual numeric semantics: true
division of integers produces the correctly rounded IEEE-754 binary64
double of the exact quotient. -/
def py_div (s n : ℕ) : ℚ := float64 ((s : ℚ) / (n : ℚ))

/-- Embedding of the simulation loop of `src/law_large_numbers.py`,
lines 30–35, under IEEE-754 binary64 semantics for the stored values:
`result = successes / n` is the correctly rounded double of the
quotient, and `abs_diff = abs(result - p)` is the absolute value (exact
in binary64) of the correctly rounded double of the difference. -/
def simLoopF {σ : Type} (binom : σ → ℕ → ℚ → ℕ × σ) (p : ℚ) :
    List ℕ → σ → List TrialRow × σ
  | [], g => ([], g)
  | n :: ns, g =>
    let d := binom g n p
    let result : ℚ := py_div d.1 n
    let abs_diff : ℚ := |float64 (result - p)|
    let rest := simLoopF binom p ns d.2
    (⟨n, result, abs_diff⟩ :: rest.1, rest.2)

-- Helper lemmas shared by the claims.

theorem oneSampler_spec : BinomialSpec oneSampler := by
  constructor
  · intro g n p _ _
    unfold oneSampler
    split
    · exact Nat.zero_le n
    · split
      · exact Nat.le_refl n
      · exact Nat.min_le_right 1 n
  · intro g n; rfl
  · intro g n
    unfold oneSampler
    norm_num

theorem successSeq_length {σ : Type} (binom : σ → ℕ → ℚ → ℕ × σ) (p : ℚ)
    (ns : List ℕ) (g : σ) : (successSeq binom p ns g).length = ns.length := by
  induction ns generalizing g with
  | nil => rfl
  | cons n ns ih => simp [successSeq, ih]

theorem simLoop_fst_eq_zipWith {σ : Type} (binom : σ → ℕ → ℚ → ℕ × σ) (p : ℚ)
    (ns : List ℕ) (g : σ) :
    (simLoop binom p ns g).1 =
      List.zipWith (fun n s => ⟨n, (s : ℚ) / (n : ℚ), |(s : ℚ) / (n : ℚ) - p|⟩)
        ns (successSeq binom p ns g) := by
  induction ns generalizing g with
  | nil => rfl
  | cons n ns ih => simp [simLoop, successSeq, ih]

theorem simLoop_fst_length {σ : Type} (binom : σ → ℕ → ℚ → ℕ × σ) (p : ℚ)
    (ns : List ℕ) (g : σ) : (simLoop binom p ns g).1.length = ns.length := by
  rw [simLoop_fst_eq_zipWith]
  simp [successSeq_length]

theorem simLoop_map_n {σ : Type} (binom : σ → ℕ → ℚ → ℕ × σ) (p : ℚ)
    (ns : List ℕ) (g : σ) :
    (simLoop binom p ns g).1.map TrialRow.n = ns := by
  induction ns generalizing g with
  | nil => rfl
  | cons n ns ih => simp [simLoop, ih]

theorem simLoop_eq_simLoop3 {σ : Type} (binom : σ → ℕ → ℚ → ℕ × σ) (p : ℚ)
    (ns : List ℕ) (g : σ) : simLoop binom p ns g = simLoop3 binom p ns g := by
  induction ns generalizing g with
  | nil => rfl
  | cons n ns ih => simp [simLoop, simLoop3, ih]

theorem float64_tenths :
    ∀ s : Fin 11,
      (float64 ((s.1 : ℚ) / 10) = (s.1 : ℚ) / 10 ↔ s.1 = 0 ∨ s.1 = 5 ∨ s.1 = 10) := by
  with_unfolding_all decide

theorem maxSampler_spec : BinomialSpec maxSampler := by
  constructor
  · intro g n p _ _
    unfold maxSampler
    split
    · exact Nat.zero_le n
    · exact Nat.le_refl n
  · intro g n; rfl
  · intro g n
    unfold maxSampler
    norm_num

-- Section A: shl is multiplication by an integer power of two.
theorem shl_eq_zpow (q : ℚ) (k : ℤ) : shl q k = q * (2:ℚ) ^ k := by
  unfold shl
  split
  · push_cast
    rw [← zpow_natCast (2:ℚ) k.toNat, Int.toNat_of_nonneg (by assumption)]
  · push_cast
    rw [← zpow_natCast (2:ℚ) (-k).toNat, Int.toNat_of_nonneg (by omega),
      div_eq_mul_inv, ← zpow_neg, neg_neg]

-- Section B: nlog2 is the floor base-2 logarithm below its fuel.
theorem nlog2_correct : ∀ (fuel n : ℕ), 1 ≤ n → n < 2 ^ fuel →
    2 ^ (nlog2 fuel n) ≤ n ∧ n < 2 ^ (nlog2 fuel n + 1)
  | 0, n, h1, h2 => by simp at h2; omega
  | fuel + 1, n, h1, h2 => by
    by_cases hn : n ≤ 1
    · have : n = 1 := by omega
      subst this
      simp [nlog2]
    · have hrec := nlog2_correct fuel (n / 2) (by omega)
        (by rw [pow_succ] at h2; omega)
      simp only [nlog2, if_neg hn]
      rw [pow_succ, pow_succ]
      omega

-- Section C: floorLog2 brackets a positive rational between powers of two.
theorem floorLog2_correct (q : ℚ) (hq : 0 < q)
    (hnum : q.num.natAbs < 2 ^ 1100) (hden : q.den < 2 ^ 1100) :
    (2:ℚ) ^ (floorLog2 q) ≤ q ∧ q < (2:ℚ) ^ (floorLog2 q + 1) := by
  have hnumpos : 0 < q.num := Rat.num_pos.mpr hq
  have ha1 : 1 ≤ q.num.toNat := by omega
  have haw : q.num.toNat < 2 ^ 1100 := by
    have : q.num.toNat ≤ q.num.natAbs := by omega
    omega
  have hb1 : 1 ≤ q.den := q.pos
  obtain ⟨hla1, hla2⟩ := nlog2_correct 1100 q.num.toNat ha1 haw
  obtain ⟨hlb1, hlb2⟩ := nlog2_correct 1100 q.den hb1 hden
  set la := nlog2 1100 q.num.toNat with hla
  set lb := nlog2 1100 q.den with hlb
  have hbq : (0:ℚ) < (q.den : ℚ) := by exact_mod_cast q.pos
  have hcast : ((q.num.toNat : ℕ) : ℚ) = (q.num : ℚ) := by
    exact_mod_cast Int.toNat_of_nonneg hnumpos.le
  have hqeq : q = (q.num.toNat : ℚ) / (q.den : ℚ) := by
    rw [hcast]
    exact (Rat.num_div_den q).symm
  -- cast the nat bounds into ℚ with zpow exponents
  have cast_pow : ∀ m : ℕ, ((2 ^ m : ℕ) : ℚ) = (2:ℚ) ^ (m : ℤ) := by
    intro m
    push_cast
    rw [zpow_natCast]
  have hA1 : (q.num.toNat : ℚ) < (2:ℚ) ^ ((la : ℤ) + 1) := by
    have := (Nat.cast_lt (α := ℚ)).mpr hla2
    rwa [cast_pow, Nat.cast_add, Nat.cast_one] at this
  have hA2 : (2:ℚ) ^ (la : ℤ) ≤ (q.num.toNat : ℚ) := by
    have := (Nat.cast_le (α := ℚ)).mpr hla1
    rwa [cast_pow] at this
  have hB1 : (q.den : ℚ) < (2:ℚ) ^ ((lb : ℤ) + 1) := by
    have := (Nat.cast_lt (α := ℚ)).mpr hlb2
    rwa [cast_pow, Nat.cast_add, Nat.cast_one] at this
  have hB2 : (2:ℚ) ^ (lb : ℤ) ≤ (q.den : ℚ) := by
    have := (Nat.cast_le (α := ℚ)).mpr hlb1
    rwa [cast_pow] at this
  have htwo : (0:ℚ) < 2 := by norm_num
  -- upper bound: q < 2 ^ (la - lb + 1)
  have hupper : q < (2:ℚ) ^ ((la : ℤ) - lb + 1) := by
    rw [hqeq, div_lt_iff₀ hbq]
    calc (q.num.toNat : ℚ) < (2:ℚ) ^ ((la : ℤ) + 1) := hA1
    _ = (2:ℚ) ^ ((la : ℤ) - lb + 1) * (2:ℚ) ^ (lb : ℤ) := by
        rw [← zpow_add₀ (two_ne_zero (α := ℚ))]
        ring_nf
    _ ≤ (2:ℚ) ^ ((la : ℤ) - lb + 1) * (q.den : ℚ) := by
        have hx : (0:ℚ) < (2:ℚ) ^ ((la : ℤ) - lb + 1) := zpow_pos htwo _
        exact mul_le_mul_of_nonneg_left hB2 hx.le
  -- lower bound: 2 ^ (la - lb - 1) < q
  have hlower : (2:ℚ) ^ ((la : ℤ) - lb - 1) < q := by
    rw [hqeq, lt_div_iff₀ hbq]
    calc (2:ℚ) ^ ((la : ℤ) - lb - 1) * (q.den : ℚ)
        < (2:ℚ) ^ ((la : ℤ) - lb - 1) * (2:ℚ) ^ ((lb : ℤ) + 1) := by
          have hx : (0:ℚ) < (2:ℚ) ^ ((la : ℤ) - lb - 1) := zpow_pos htwo _
          exact (mul_lt_mul_left hx).mpr hB1
    _ = (2:ℚ) ^ (la : ℤ) := by
        rw [← zpow_add₀ (two_ne_zero (α := ℚ))]
        ring_nf
    _ ≤ (q.num.toNat : ℚ) := hA2
  -- now case on the floorLog2 branch
  unfold floorLog2
  rw [← hla, ← hlb, shl_eq_zpow, one_mul]
  split_ifs with h
  · exact ⟨h, hupper⟩
  · push_neg at h
    constructor
    · exact hlower.le.trans (le_of_eq (by ring_nf))
    · have : (la : ℤ) - lb - 1 + 1 = (la : ℤ) - lb := by ring
      rw [this]
      exact h

-- Section D: properties of round-to-nearest-even.
theorem rne_cases (x : ℚ) : rne x = ⌊x⌋ ∨ rne x = ⌊x⌋ + 1 := by
  unfold rne
  dsimp only
  split_ifs <;> simp

theorem rne_le (x : ℚ) : (rne x : ℚ) ≤ x + 1/2 := by
  have hf : (⌊x⌋ : ℚ) ≤ x := Int.floor_le x
  unfold rne
  dsimp only
  split_ifs with h1 h2 h3 <;> push_cast <;> linarith

theorem le_rne (x : ℚ) : x - 1/2 ≤ (rne x : ℚ) := by
  have hf : x < (⌊x⌋ : ℚ) + 1 := Int.lt_floor_add_one x
  unfold rne
  dsimp only
  split_ifs with h1 h2 h3 <;> push_cast <;> linarith

theorem rne_mono {x y : ℚ} (hxy : x ≤ y) : rne x ≤ rne y := by
  have hff : ⌊x⌋ ≤ ⌊y⌋ := Int.floor_le_floor hxy
  rcases lt_or_eq_of_le hff with hlt | heq
  · have h1 : rne x ≤ ⌊x⌋ + 1 := by rcases rne_cases x with h | h <;> omega
    have h2 : ⌊y⌋ ≤ rne y := by rcases rne_cases y with h | h <;> omega
    omega
  · unfold rne
    dsimp only
    rw [← heq]
    split_ifs with h1 h2 h3 h4 h5 h6 <;> first | omega | linarith

-- Section E: bounds and monotonicity of float64pos on the model's domain.
theorem float64pos_bounds (q : ℚ) (hq : 0 < q)
    (hnum : q.num.natAbs < 2 ^ 1100) (hden : q.den < 2 ^ 1100) :
    (2:ℚ) ^ (floorLog2 q) ≤ float64pos q ∧
      float64pos q ≤ (2:ℚ) ^ (floorLog2 q + 1) := by
  obtain ⟨hl, hu⟩ := floorLog2_correct q hq hnum hden
  set E := floorLog2 q with hE
  have htwo : (0:ℚ) < 2 := by norm_num
  have hpowpos : (0:ℚ) < (2:ℚ) ^ ((52:ℤ) - E) := zpow_pos htwo _
  have hscale : shl q (52 - E) = q * (2:ℚ) ^ ((52:ℤ) - E) := shl_eq_zpow q _
  set M := shl q (52 - E) with hM
  have hM1 : (2:ℚ) ^ (52:ℤ) ≤ M := by
    rw [hscale]
    calc (2:ℚ) ^ (52:ℤ) = (2:ℚ) ^ E * (2:ℚ) ^ ((52:ℤ) - E) := by
          rw [← zpow_add₀ (two_ne_zero (α := ℚ))]; ring_nf
    _ ≤ q * (2:ℚ) ^ ((52:ℤ) - E) := mul_le_mul_of_nonneg_right hl hpowpos.le
  have hM2 : M < (2:ℚ) ^ (53:ℤ) := by
    rw [hscale]
    calc q * (2:ℚ) ^ ((52:ℤ) - E) < (2:ℚ) ^ (E + 1) * (2:ℚ) ^ ((52:ℤ) - E) :=
          (mul_lt_mul_right hpowpos).mpr hu
    _ = (2:ℚ) ^ (53:ℤ) := by
          rw [← zpow_add₀ (two_ne_zero (α := ℚ))]; ring_nf
  -- integrality: the rounded significand lies in [2^52, 2^53]
  have hr1 : ((2:ℤ) ^ (52:ℕ) : ℤ) ≤ rne M := by
    have hq1 : ((2:ℤ) ^ (52:ℕ) : ℚ) - 1 < (rne M : ℚ) := by
      have := le_rne M
      push_cast at hM1 ⊢
      linarith
    have : ((2:ℤ) ^ (52:ℕ) : ℤ) - 1 < rne M := by exact_mod_cast hq1
    linarith
  have hr2 : rne M ≤ (2:ℤ) ^ (53:ℕ) := by
    have hq2 : (rne M : ℚ) < ((2:ℤ) ^ (53:ℕ) : ℚ) + 1 := by
      have := rne_le M
      push_cast at hM2 ⊢
      linarith
    have : rne M < ((2:ℤ) ^ (53:ℕ) : ℤ) + 1 := by exact_mod_cast hq2
    linarith
  -- scale back
  have hback : float64pos q = (rne M : ℚ) * (2:ℚ) ^ (E - 52) := by
    rw [float64pos, ← hE, ← hM, shl_eq_zpow]
  have hpp : (0:ℚ) < (2:ℚ) ^ (E - 52) := zpow_pos htwo _
  constructor
  · rw [hback]
    calc (2:ℚ) ^ E = (2:ℚ) ^ (52:ℤ) * (2:ℚ) ^ (E - 52) := by
          rw [← zpow_add₀ (two_ne_zero (α := ℚ))]; ring_nf
    _ ≤ (rne M : ℚ) * (2:ℚ) ^ (E - 52) := by
          have : ((2:ℤ) ^ (52:ℕ) : ℚ) ≤ (rne M : ℚ) := by exact_mod_cast hr1
          push_cast at this
          exact mul_le_mul_of_nonneg_right (by linarith) hpp.le
  · rw [hback]
    calc (rne M : ℚ) * (2:ℚ) ^ (E - 52) ≤ (2:ℚ) ^ (53:ℤ) * (2:ℚ) ^ (E - 52) := by
          have : (rne M : ℚ) ≤ ((2:ℤ) ^ (53:ℕ) : ℚ) := by exact_mod_cast hr2
          exact mul_le_mul_of_nonneg_right (by push_cast at this ⊢; linarith) hpp.le
    _ = (2:ℚ) ^ (E + 1) := by
          rw [← zpow_add₀ (two_ne_zero (α := ℚ))]; ring_nf

theorem float64pos_nonneg (q : ℚ) (hq : 0 < q) : 0 ≤ float64pos q := by
  have htwo : (0:ℚ) < 2 := by norm_num
  have hMpos : 0 < shl q (52 - floorLog2 q) := by
    rw [shl_eq_zpow]
    exact mul_pos hq (zpow_pos htwo _)
  have hr : (0:ℤ) ≤ rne (shl q (52 - floorLog2 q)) := by
    have h1 : (-1 : ℚ) < (rne (shl q (52 - floorLog2 q)) : ℚ) := by
      have := le_rne (shl q (52 - floorLog2 q))
      linarith
    have : (-1 : ℤ) < rne (shl q (52 - floorLog2 q)) := by exact_mod_cast h1
    linarith
  rw [float64pos, shl_eq_zpow]
  have : (0:ℚ) ≤ (rne (shl q (52 - floorLog2 q)) : ℚ) := by exact_mod_cast hr
  positivity

theorem float64pos_mono {q r : ℚ} (hq : 0 < q) (hqr : q ≤ r)
    (hqn : q.num.natAbs < 2 ^ 1100) (hqd : q.den < 2 ^ 1100)
    (hrn : r.num.natAbs < 2 ^ 1100) (hrd : r.den < 2 ^ 1100) :
    float64pos q ≤ float64pos r := by
  have hr0 : 0 < r := lt_of_lt_of_le hq hqr
  have htwo : (0:ℚ) < 2 := by norm_num
  obtain ⟨hql, hqu⟩ := floorLog2_correct q hq hqn hqd
  obtain ⟨hrl, hru⟩ := floorLog2_correct r hr0 hrn hrd
  have hEE : floorLog2 q ≤ floorLog2 r := by
    have h1 : (2:ℚ) ^ (floorLog2 q) < (2:ℚ) ^ (floorLog2 r + 1) :=
      lt_of_le_of_lt (hql.trans hqr) hru
    have := (zpow_lt_zpow_iff_right₀ (by norm_num : (1:ℚ) < 2)).mp h1
    omega
  rcases eq_or_lt_of_le hEE with hE | hE
  · -- same binade: monotone rounding of the scaled mantissas
    have hback : ∀ s : ℚ, float64pos s =
        (rne (shl s (52 - floorLog2 s)) : ℚ) * (2:ℚ) ^ (floorLog2 s - 52) := by
      intro s
      rw [float64pos, shl_eq_zpow]
    rw [hback, hback, ← hE]
    have hMle : shl q (52 - floorLog2 q) ≤ shl r (52 - floorLog2 q) := by
      rw [shl_eq_zpow, shl_eq_zpow]
      exact mul_le_mul_of_nonneg_right hqr (zpow_pos htwo _).le
    have : (rne (shl q (52 - floorLog2 q)) : ℚ) ≤
        (rne (shl r (52 - floorLog2 q)) : ℚ) := by
      exact_mod_cast rne_mono hMle
    exact mul_le_mul_of_nonneg_right this (zpow_pos htwo _).le
  · -- q's binade is strictly below r's
    have h1 : float64pos q ≤ (2:ℚ) ^ (floorLog2 q + 1) :=
      (float64pos_bounds q hq hqn hqd).2
    have h2 : (2:ℚ) ^ (floorLog2 r) ≤ float64pos r :=
      (float64pos_bounds r hr0 hrn hrd).1
    refine h1.trans (le_trans ?_ h2)
    exact zpow_le_zpow_right₀ (by norm_num) (by omega)

-- Section F: float64 on signed arguments.
theorem float64_neg (q : ℚ) : float64 (-q) = -float64 q := by
  rcases lt_trichotomy q 0 with hq | hq | hq
  · rw [float64, float64,
      if_neg (by intro h; rw [neg_eq_zero.mp h] at hq; exact absurd hq (by norm_num)),
      if_neg (by linarith), if_neg (by linarith), if_pos hq, neg_neg]
  · rw [hq]; norm_num [float64]
  · rw [float64, float64, if_neg (by intro h; exact absurd (neg_eq_zero.mp h) (by linarith)),
      if_pos (by linarith), if_neg (by linarith), if_neg (by linarith), neg_neg]

theorem float64_nonneg {q : ℚ} (hq : 0 ≤ q) : 0 ≤ float64 q := by
  rcases eq_or_lt_of_le hq with h | h
  · rw [float64, if_pos h.symm]
  · rw [float64, if_neg (by linarith), if_neg (by linarith)]
    exact float64pos_nonneg q h

theorem natAbs_neg_den_neg (s : ℚ) : (-s).num.natAbs = s.num.natAbs ∧ (-s).den = s.den := by
  constructor <;> simp

theorem float64_mono {q r : ℚ} (hqr : q ≤ r)
    (hqn : q.num.natAbs < 2 ^ 1100) (hqd : q.den < 2 ^ 1100)
    (hrn : r.num.natAbs < 2 ^ 1100) (hrd : r.den < 2 ^ 1100) :
    float64 q ≤ float64 r := by
  rcases lt_trichotomy q 0 with hq | hq | hq
  · have e1 : float64 q = -float64pos (-q) := by
      rw [float64, if_neg (by intro h; rw [h] at hq; exact absurd hq (by norm_num)), if_pos hq]
    rcases lt_trichotomy r 0 with hr | hr | hr
    · have e2 : float64 r = -float64pos (-r) := by
        rw [float64, if_neg (by intro h; rw [h] at hr; exact absurd hr (by norm_num)),
        if_pos hr]
      rw [e1, e2, neg_le_neg_iff]
      exact float64pos_mono (by linarith) (by linarith)
        ((natAbs_neg_den_neg r).1.trans_lt hrn) (((natAbs_neg_den_neg r).2).trans_lt hrd)
        ((natAbs_neg_den_neg q).1.trans_lt hqn) (((natAbs_neg_den_neg q).2).trans_lt hqd)
    · rw [e1, hr]
      have h0 : float64 (0:ℚ) = 0 := by rw [float64]; simp
      rw [h0]
      have := float64pos_nonneg (-q) (by linarith)
      linarith
    · rw [e1]
      have h1 := float64pos_nonneg (-q) (by linarith)
      have h2 := float64pos_nonneg r hr
      rw [float64, if_neg (by linarith), if_neg (by linarith)]
      linarith
  · subst hq
    have h0 : float64 (0:ℚ) = 0 := by rw [float64]; simp
    rw [h0]
    exact float64_nonneg hqr
  · have h0r : 0 < r := lt_of_lt_of_le hq hqr
    rw [float64, if_neg (by linarith), if_neg (by linarith),
      float64, if_neg (by linarith), if_neg (by linarith)]
    exact float64pos_mono hq hqr hqn hqd hrn hrd

theorem float64_one : float64 1 = 1 := by with_unfolding_all decide

-- Section G: numerator and denominator bounds feeding the domain side conditions.
theorem den_intCast_div_le (a b : ℤ) (hb : 0 < b) :
    (((a : ℚ)) / ((b : ℚ))).den ≤ b.toNat := by
  have h := Rat.den_dvd a b
  rw [Rat.divInt_eq_div] at h
  have := Int.le_of_dvd hb h
  omega

theorem natAbs_num_le_den {q : ℚ} (h1 : -1 ≤ q) (h2 : q ≤ 1) :
    q.num.natAbs ≤ q.den := by
  have hden : (0:ℚ) < (q.den : ℚ) := by exact_mod_cast q.pos
  have hnum : (q.num : ℚ) = q * (q.den : ℚ) :=
    (div_eq_iff hden.ne').mp (Rat.num_div_den q)
  have hu : (q.num : ℚ) ≤ (q.den : ℚ) := by
    rw [hnum]
    nlinarith
  have hl : -((q.den : ℚ)) ≤ (q.num : ℚ) := by
    rw [hnum]
    nlinarith
  have hu' : q.num ≤ (q.den : ℤ) := by exact_mod_cast hu
  have hl' : -((q.den : ℤ)) ≤ q.num := by exact_mod_cast hl
  omega

theorem sub_den_le (x p : ℚ) : (x - p).den ≤ x.den * p.den := by
  have h : (x + (-p)).den ∣ x.den * (-p).den := Rat.add_den_dvd x (-p)
  have hd : (-p).den = p.den := by simp
  rw [hd] at h
  have := Nat.le_of_dvd (Nat.mul_pos x.pos p.pos) h
  simpa [sub_eq_add_neg] using this

theorem float64pos_den_le (q : ℚ) (hE1 : -24 ≤ floorLog2 q) (hE2 : floorLog2 q ≤ 0) :
    (float64pos q).den ≤ 2 ^ 76 := by
  have hrepr : float64pos q =
      ((rne (shl q (52 - floorLog2 q)) : ℤ) : ℚ) /
        ((2 ^ (-(floorLog2 q - 52)).toNat : ℤ) : ℚ) := by
    rw [float64pos, shl, if_neg (by omega)]
  rw [hrepr]
  have hb : (0:ℤ) < 2 ^ (-(floorLog2 q - 52)).toNat := by positivity
  have h := den_intCast_div_le (rne (shl q (52 - floorLog2 q)))
    (2 ^ (-(floorLog2 q - 52)).toNat) hb
  have htn : ((2:ℤ) ^ (-(floorLog2 q - 52)).toNat).toNat
      = 2 ^ (-(floorLog2 q - 52)).toNat := by
    have : ((2:ℤ) ^ (-(floorLog2 q - 52)).toNat) = ((2 ^ (-(floorLog2 q - 52)).toNat : ℕ) : ℤ) := by
      push_cast
      rfl
    omega
  rw [htn] at h
  refine h.trans (Nat.pow_le_pow_right (by norm_num) ?_)
  omega

theorem float64_zero : float64 0 = 0 := by rw [float64]; simp

theorem float64_of_pos {q : ℚ} (hq : 0 < q) : float64 q = float64pos q := by
  rw [float64, if_neg (by linarith), if_neg (by linarith)]

-- Section H: the stored row values of one loop iteration are bounded.
theorem row_bounds {p : ℚ} (hp0 : 0 ≤ p) (hp1 : p ≤ 1) (hpf : float64 p = p)
    (hpd : p.den ≤ 2 ^ 1000) (s n : ℕ) (hn1 : 1 ≤ n) (hn2 : n ≤ 10000000)
    (hs : s ≤ n) :
    0 ≤ py_div s n ∧ py_div s n ≤ 1 ∧
    0 ≤ |float64 (py_div s n - p)| ∧
    |float64 (py_div s n - p)| ≤ max p (float64 (1 - p)) := by
  have hpow_mono : (2:ℕ) ^ 1000 < 2 ^ 1100 := Nat.pow_lt_pow_right (by norm_num) (by norm_num)
  have hpnum : p.num.natAbs ≤ p.den := natAbs_num_le_den (by linarith) hp1
  have hpd' : p.den < 2 ^ 1100 := lt_of_le_of_lt hpd hpow_mono
  have hpnum' : p.num.natAbs < 2 ^ 1100 := lt_of_le_of_lt (hpnum.trans hpd) hpow_mono
  rcases Nat.eq_zero_or_pos s with hs0 | hs1
  · -- s = 0: the quotient is exactly zero
    subst hs0
    have hq0 : ((0:ℕ) : ℚ) / (n : ℚ) = 0 := by simp
    have hx : py_div 0 n = 0 := by rw [py_div, hq0, float64_zero]
    rw [hx]
    have hdev : |float64 (0 - p)| = p := by
      rw [zero_sub, float64_neg, hpf, abs_neg, abs_of_nonneg hp0]
    rw [hdev]
    exact ⟨le_refl 0, by norm_num, hp0, le_max_left p _⟩
  · -- s ≥ 1
    set q : ℚ := (s : ℚ) / (n : ℚ) with hqdef
    have hnq : (0:ℚ) < (n : ℚ) := by exact_mod_cast hn1
    have hq_pos : 0 < q := div_pos (by exact_mod_cast hs1) hnq
    have hq_le_one : q ≤ 1 := by
      rw [hqdef, div_le_one hnq]
      exact_mod_cast hs
    -- domain of q
    have hqden : q.den ≤ n := by
      have h := den_intCast_div_le (s : ℤ) (n : ℤ) (by exact_mod_cast hn1)
      have hcast : ((s:ℤ) : ℚ) / ((n:ℤ) : ℚ) = q := by push_cast; rfl
      rw [hcast] at h
      omega
    have hqden' : q.den < 2 ^ 1100 := by
      have h7 : n < 2 ^ 1100 := lt_of_le_of_lt hn2 (by norm_num)
      omega
    have hqnum' : q.num.natAbs < 2 ^ 1100 := by
      have := natAbs_num_le_den (by linarith) hq_le_one
      have := this.trans hqden
      have h7 : n < 2 ^ 1100 := lt_of_le_of_lt hn2 (by norm_num)
      omega
    have hone_num : (1:ℚ).num.natAbs < 2 ^ 1100 := by norm_num
    have hone_den : (1:ℚ).den < 2 ^ 1100 := by norm_num
    -- the stored frequency
    have hx0 : 0 ≤ py_div s n := by
      rw [py_div]
      exact float64_nonneg hq_pos.le
    have hx1 : py_div s n ≤ 1 := by
      rw [py_div]
      calc float64 q ≤ float64 1 := float64_mono hq_le_one hqnum' hqden' hone_num hone_den
      _ = 1 := float64_one
    set x : ℚ := py_div s n with hxdef
    -- binade bounds for q, giving a denominator bound for x
    obtain ⟨hql, hqu⟩ := floorLog2_correct q hq_pos hqnum' hqden'
    have hE_le : floorLog2 q ≤ 0 := by
      have h1 : (2:ℚ) ^ (floorLog2 q) ≤ (2:ℚ) ^ (0:ℤ) := by
        rw [zpow_zero]
        exact hql.trans hq_le_one
      exact (zpow_le_zpow_iff_right₀ (by norm_num : (1:ℚ) < 2)).mp h1
    have hq_big : (2:ℚ) ^ (-24:ℤ) ≤ q := by
      have h1 : (1:ℚ) / (n : ℚ) ≤ q := by
        rw [hqdef]
        exact (div_le_div_right hnq).mpr (by exact_mod_cast hs1)
      have h2 : (1:ℚ) / 10000000 ≤ 1 / (n : ℚ) := by
        apply one_div_le_one_div_of_le hnq
        exact_mod_cast hn2
      have h3 : (2:ℚ) ^ (-24:ℤ) ≤ 1 / 10000000 := by
        rw [show ((-24:ℤ)) = -((24:ℕ) : ℤ) by norm_num, zpow_neg, zpow_natCast]
        norm_num
      exact h3.trans (h2.trans h1)
    have hE_ge : (-24:ℤ) ≤ floorLog2 q := by
      have h1 : (2:ℚ) ^ (-24:ℤ) < (2:ℚ) ^ (floorLog2 q + 1) := lt_of_le_of_lt hq_big hqu
      have := (zpow_lt_zpow_iff_right₀ (by norm_num : (1:ℚ) < 2)).mp h1
      omega
    have hxden : x.den ≤ 2 ^ 76 := by
      rw [hxdef, py_div, float64_of_pos hq_pos]
      exact float64pos_den_le q hE_ge hE_le
    have hxnum : x.num.natAbs ≤ x.den := natAbs_num_le_den (by linarith) hx1
    -- domains of the differences
    have hsub_den : (x - p).den < 2 ^ 1100 := by
      have h := sub_den_le x p
      have h2 : x.den * p.den ≤ 2 ^ 76 * 2 ^ 1000 :=
        Nat.mul_le_mul hxden hpd
      have h3 : (2:ℕ) ^ 76 * 2 ^ 1000 = 2 ^ 1076 := by
        rw [← pow_add]
      have h4 : (2:ℕ) ^ 1076 < 2 ^ 1100 := Nat.pow_lt_pow_right (by norm_num) (by norm_num)
      omega
    have hsub_num : (x - p).num.natAbs < 2 ^ 1100 := by
      have := natAbs_num_le_den (q := x - p) (by linarith) (by linarith)
      omega
    have hone_sub_den : (1 - p).den < 2 ^ 1100 := by
      have h := sub_den_le 1 p
      have h1 : (1:ℚ).den = 1 := rfl
      rw [h1, one_mul] at h
      omega
    have hone_sub_num : (1 - p).num.natAbs < 2 ^ 1100 := by
      have := natAbs_num_le_den (q := 1 - p) (by linarith) (by linarith)
      have h := sub_den_le 1 p
      have h1 : (1:ℚ).den = 1 := rfl
      rw [h1, one_mul] at h
      omega
    have hneg_den : (-p).den < 2 ^ 1100 := by
      have : (-p).den = p.den := by simp
      omega
    have hneg_num : (-p).num.natAbs < 2 ^ 1100 := by
      have : (-p).num.natAbs = p.num.natAbs := by simp
      omega
    -- the stored deviation is trapped between -p and float64 (1 - p)
    have hup : float64 (x - p) ≤ float64 (1 - p) :=
      float64_mono (by linarith) hsub_num hsub_den hone_sub_num hone_sub_den
    have hdown : -p ≤ float64 (x - p) := by
      have h1 : float64 (-p) ≤ float64 (x - p) :=
        float64_mono (by linarith) hneg_num hneg_den hsub_num hsub_den
      rwa [float64_neg, hpf] at h1
    refine ⟨hx0, hx1, abs_nonneg _, ?_⟩
    rw [abs_le]
    constructor
    · have := le_max_left p (float64 (1 - p))
      linarith
    · exact hup.trans (le_max_right _ _)

-- Claim theorems.

/-- Claim C1 (amended): for every trial result produced by a run (any
`p`, any configured `n`, any successes drawn), the recorded frequency is
the binary64 rounding of `successes / n`, and the recorded absolute
deviation is the absolute value of the binary64 rounding of
`frequency − p`, position by position along the run. -/
theorem claim_C1 {σ : Type} (binom : σ → ℕ → ℚ → ℕ × σ) (p : ℚ)
    (ns : List ℕ) (g : σ) :
    List.Forall₂
      (fun (r : TrialRow) (x : ℕ × ℕ) =>
        r.n = x.1 ∧ r.result = py_div x.2 x.1 ∧
          r.abs_diff = |float64 (r.result - p)|)
      (simLoopF binom p ns g).1 (ns.zip (successSeq binom p ns g)) := by
  induction ns generalizing g with
  | nil => exact List.Forall₂.nil
  | cons n ns ih =>
    simp only [simLoopF, successSeq, List.zip_cons_cons]
    exact List.Forall₂.cons ⟨rfl, rfl, rfl⟩ (ih _)

/-- Claim C1, counterexample to the claim as stated: under the program's
binary64 arithmetic, a sampler satisfying the Binomial contract can draw
`successes = 1` at `p = 0.5`, `n = 10`, and then neither does the
recorded frequency equal the exact rational `successes / n = 1/10`, nor
does the recorded deviation equal the exact `|successes/n − p| = 2/5`. -/
theorem claim_C1_counterexample :
    BinomialSpec oneSampler ∧
    successSeq oneSampler (1/2) [10] () = [1] ∧
    (simLoopF oneSampler (1/2) [10] ()).1.map TrialRow.result ≠ [(1:ℚ)/10] ∧
    (simLoopF oneSampler (1/2) [10] ()).1.map TrialRow.abs_diff
        ≠ [|(1:ℚ)/10 - 1/2|] := by
  refine ⟨oneSampler_spec, ?_, ?_, ?_⟩
  · with_unfolding_all decide
  · with_unfolding_all decide
  · with_unfolding_all decide

/-- Claim C2 (amended): for every binary64 value `p ∈ [0,1]` (as the
slider supplies; `float64 p = p` with denominator within the model's
domain) and all sample sizes `1 ≤ n ≤ 10000000` — which covers every
configured sample size — assuming the drawn successes lies in `[0,n]`,
every stored row satisfies `0 ≤ frequency ≤ 1` and
`0 ≤ absolute_deviation ≤ max p (fl (1 − p))`, where `fl` is binary64
rounding: the stored deviation is bounded by the rounding of `1 − p`,
which can exceed the exact `max p (1 − p)` by one rounding step. -/
theorem claim_C2 {σ : Type} (binom : σ → ℕ → ℚ → ℕ × σ) (p : ℚ)
    (hp0 : 0 ≤ p) (hp1 : p ≤ 1) (hpf : float64 p = p) (hpd : p.den ≤ 2 ^ 1000)
    (ns : List ℕ) (hns : ∀ n ∈ ns, 1 ≤ n ∧ n ≤ 10000000) (g : σ)
    (hb : ∀ g' n, (binom g' n p).1 ≤ n) :
    ∀ r ∈ (simLoopF binom p ns g).1,
      0 ≤ r.result ∧ r.result ≤ 1 ∧ 0 ≤ r.abs_diff ∧
        r.abs_diff ≤ max p (float64 (1 - p)) := by
  induction ns generalizing g with
  | nil => intro r hr; simp [simLoopF] at hr
  | cons n ns ih =>
    intro r hr
    simp only [simLoopF, List.mem_cons] at hr
    rcases hr with hr | hr
    · subst hr
      obtain ⟨h1, h2⟩ := hns n (List.mem_cons_self n ns)
      exact row_bounds hp0 hp1 hpf hpd _ n h1 h2 (hb g n)
    · exact ih (fun m hm => hns m (List.mem_cons_of_mem n hm)) (binom g n p).2 r hr

/-- Claim C2, counterexample to the claim as stated: under the program's
binary64 arithmetic, at the slider value `p = fl(0.09)` (written
`float64 (9/100)`: the binary64 rounding of 0.09, a value in `[0,1]`),
when a contract-satisfying sampler draws `successes = n` at `n = 10`,
the stored frequency is `1` and the stored deviation is `fl(1 − p)`,
which strictly exceeds the claimed bound `max p (1 − p) = 1 − p`. -/
theorem claim_C2_counterexample :
    BinomialSpec maxSampler ∧
    0 ≤ float64 (9/100) ∧ float64 (9/100) ≤ 1 ∧
    successSeq maxSampler (float64 (9/100)) [10] () = [10] ∧
    py_div 10 10 = 1 ∧
    (simLoopF maxSampler (float64 (9/100)) [10] ()).1.map TrialRow.abs_diff
        = [|float64 (1 - float64 (9/100))|] ∧
    max (float64 (9/100)) (1 - float64 (9/100))
        < |float64 (1 - float64 (9/100))| := by
  have hne : float64 (9/100) ≠ 0 := by with_unfolding_all decide
  have hpy : py_div 10 10 = 1 := by with_unfolding_all decide
  refine ⟨maxSampler_spec, ?_, ?_, ?_, hpy, ?_, ?_⟩
  · with_unfolding_all decide
  · with_unfolding_all decide
  · with_unfolding_all decide
  · simp [simLoopF, maxSampler, hne, hpy]
  · with_unfolding_all decide

/-- Claim C3: with a fixed integer seed and fixed `p`, two runs of the
seeded variant on identical input sequences of sample sizes draw
identical `successes` sequences. -/
theorem claim_C3 {σ : Type} (binom : σ → ℕ → ℚ → ℕ × σ) (default_rng : ℤ → σ)
    (seed₁ seed₂ : ℤ) (p₁ p₂ : ℚ) (ns₁ ns₂ : List ℕ)
    (hseed : seed₁ = seed₂) (hp : p₁ = p₂) (hns : ns₁ = ns₂) :
    successSeq binom p₁ ns₁ (default_rng seed₁)
      = successSeq binom p₂ ns₂ (default_rng seed₂) := by
  subst hseed; subst hp; subst hns; rfl

/-- Claim C4: for every configured sample size and every generator
state, a Binomial sampler yields `successes = 0` when `p = 0` and
`successes = n` when `p = 1`. -/
theorem claim_C4 {σ : Type} (binom : σ → ℕ → ℚ → ℕ × σ)
    (hb : BinomialSpec binom) (include_big_n : Bool) (g : σ) :
    (∀ s ∈ successSeq binom 0 (n_values include_big_n) g, s = 0) ∧
    successSeq binom 1 (n_values include_big_n) g = n_values include_big_n := by
  constructor
  · have key : ∀ (ns : List ℕ) (g' : σ), ∀ s ∈ successSeq binom 0 ns g', s = 0 := by
      intro ns
      induction ns with
      | nil => intro g' s hs; simp [successSeq] at hs
      | cons n ns ih =>
        intro g' s hs
        simp only [successSeq, List.mem_cons] at hs
        rcases hs with hs | hs
        · rw [hs]; exact hb.p_zero g' n
        · exact ih _ s hs
    exact key _ g
  · have key : ∀ (ns : List ℕ) (g' : σ), successSeq binom 1 ns g' = ns := by
      intro ns
      induction ns with
      | nil => intro g'; rfl
      | cons n ns ih =>
        intro g'
        simp only [successSeq, ih]
        rw [hb.p_one g' n]
    exact key _ g

/-- Claim C5: for every run with `p ∈ [0,1]`, each drawn `successes`
value lies in `[0, n]` for its sample size `n` (position by position;
the lower bound holds because successes counts are naturals). -/
theorem claim_C5 {σ : Type} (binom : σ → ℕ → ℚ → ℕ × σ)
    (hb : BinomialSpec binom) (p : ℚ) (hp0 : 0 ≤ p) (hp1 : p ≤ 1)
    (ns : List ℕ) (g : σ) :
    List.Forall₂ (fun s n => s ≤ n) (successSeq binom p ns g) ns := by
  induction ns generalizing g with
  | nil => exact List.Forall₂.nil
  | cons n ns ih =>
    exact List.Forall₂.cons (hb.le_n g n p hp0 hp1) (ih _)

/-- Claim C6: a run produces exactly one trial row per configured sample
size, in input order, and the configured sizes are exactly
`[10, 50, 100, 1000]`, extended with `10000000` exactly when the
include-large-n flag is set. -/
theorem claim_C6 {σ : Type} (binom : σ → ℕ → ℚ → ℕ × σ) (p : ℚ)
    (include_big_n : Bool) (g : σ) :
    (simLoop binom p (n_values include_big_n) g).1.map TrialRow.n
        = n_values include_big_n ∧
    n_values false = [10, 50, 100, 1000] ∧
    n_values true = [10, 50, 100, 1000, 10000000] := by
  exact ⟨simLoop_map_n binom p _ g, rfl, rfl⟩

/-- Claim C8: division by zero is unreachable in the simulation loop:
every sample size over which `result = successes / n` is computed comes
from the fixed list `n_values`, whose members are all positive. -/
theorem claim_C8 (include_big_n : Bool) (n : ℕ)
    (hn : n ∈ n_values include_big_n) : 0 < n := by
  cases include_big_n <;> simp [n_values] at hn <;> omega

/-- Claim C9: the two variants implement the same simulation core: given
the same random source, the same initial generator state, the same `p`
and the same include-large-n flag, they produce identical trial-row
sequences (they differ only in seed policy and chart styling). -/
theorem claim_C9 {σ : Type} (binom : σ → ℕ → ℚ → ℕ × σ) (g : σ) (p : ℚ)
    (include_big_n : Bool) :
    (simLoop binom p (n_values include_big_n) g).1
        = (simLoop3 binom p (n_values3 include_big_n) g).1 ∧
    n_values include_big_n = n_values3 include_big_n := by
  refine ⟨?_, rfl⟩
  rw [show n_values3 include_big_n = n_values include_big_n from rfl,
    simLoop_eq_simLoop3]

/-- Claim C10: the seeded variant takes an integer seed (never process
entropy), so its whole trial-row output is determined by the sampler,
the seed, `p` and the include-large-n flag: two runs with identical
inputs yield identical row sequences. -/
theorem claim_C10 {σ : Type} (binom : σ → ℕ → ℚ → ℕ × σ) (default_rng : ℤ → σ)
    (seed₁ seed₂ : ℤ) (p₁ p₂ : ℚ) (big₁ big₂ : Bool)
    (hseed : seed₁ = seed₂) (hp : p₁ = p₂) (hbig : big₁ = big₂) :
    run_seeded binom default_rng seed₁ p₁ big₁
      = run_seeded binom default_rng seed₂ p₂ big₂ := by
  subst hseed; subst hp; subst hbig; rfl

/-- Claim C7 (amended): given `p = 0.5`, `n = 10` and any generator
state, the drawn successes lies in `[0,10]`, and the recorded frequency
is the IEEE-754 binary64 rounding of `successes / 10`; it equals the
exact rational `successes / 10` precisely when `successes` is `0`, `5`
or `10` (the only multiples of a tenth in `[0,1]` representable in
binary64). -/
theorem claim_C7 {σ : Type} (binom : σ → ℕ → ℚ → ℕ × σ)
    (hb : BinomialSpec binom) (g : σ) :
    (binom g 10 (1/2)).1 ≤ 10 ∧
    (simLoopF binom (1/2) [10] g).1.map TrialRow.result
        = [py_div (binom g 10 (1/2)).1 10] ∧
    (py_div (binom g 10 (1/2)).1 10 = ((binom g 10 (1/2)).1 : ℚ) / 10 ↔
      ((binom g 10 (1/2)).1 = 0 ∨ (binom g 10 (1/2)).1 = 5 ∨
        (binom g 10 (1/2)).1 = 10)) := by
  have hs : (binom g 10 (1/2)).1 ≤ 10 :=
    hb.le_n g 10 (1/2) (by norm_num) (by norm_num)
  refine ⟨hs, ?_, ?_⟩
  · simp [simLoopF]
  · have h := float64_tenths ⟨(binom g 10 (1/2)).1, by omega⟩
    simpa [py_div] using h

/-- Claim C7, counterexample to the claim as stated: a sampler
satisfying the Binomial contract can draw `successes = 1` at `p = 0.5`,
`n = 10` (Binomial(10, 0.5) has full support on `[0,10]`), and the
stored binary64 frequency then differs from the exact rational
`1 / 10`. -/
theorem claim_C7_counterexample :
    BinomialSpec oneSampler ∧
    successSeq oneSampler (1/2) [10] () = [1] ∧
    (simLoopF oneSampler (1/2) [10] ()).1.map TrialRow.result ≠ [(1:ℚ)/10] := by
  refine ⟨oneSampler_spec, ?_, ?_⟩
  · with_unfolding_all decide
  · with_unfolding_all decide

-- Witnesses for the claim theorems that carry hypotheses.

theorem claim_C2_witness :
    0 ≤ (⟨10, 1, 1/2⟩ : TrialRow).result ∧
    (⟨10, 1, 1/2⟩ : TrialRow).result ≤ 1 ∧
    0 ≤ (⟨10, 1, 1/2⟩ : TrialRow).abs_diff ∧
    (⟨10, 1, 1/2⟩ : TrialRow).abs_diff ≤ max (1/2 : ℚ) (float64 (1 - 1/2)) :=
  claim_C2 maxSampler (1/2) (by norm_num) (by norm_num)
    (by with_unfolding_all decide) (by with_unfolding_all decide)
    (n_values false) (by decide) ()
    (fun g' n => by norm_num [maxSampler]) ⟨10, 1, 1/2⟩
    (by with_unfolding_all decide)

theorem claim_C3_witness :
    successSeq oneSampler (1/2) (n_values false) ((fun _ : ℤ => ()) 42)
      = successSeq oneSampler (1/2) (n_values false) ((fun _ : ℤ => ()) 42) :=
  claim_C3 oneSampler (fun _ : ℤ => ()) 42 42 (1/2) (1/2) (n_values false)
    (n_values false) rfl rfl rfl

theorem claim_C4_witness :
    successSeq oneSampler 1 (n_values true) () = [10, 50, 100, 1000, 10000000] := by
  rw [(claim_C4 oneSampler oneSampler_spec true ()).2]
  decide

theorem claim_C5_witness :
    List.Forall₂ (fun s n => s ≤ n)
      (successSeq oneSampler (1/2) (n_values false) ()) (n_values false) :=
  claim_C5 oneSampler oneSampler_spec (1/2) (by norm_num) (by norm_num)
    (n_values false) ()

theorem claim_C7_witness :
    (oneSampler () 10 (1/2)).1 ≤ 10 ∧
    (simLoopF oneSampler (1/2) [10] ()).1.map TrialRow.result
        = [py_div (oneSampler () 10 (1/2)).1 10] ∧
    (py_div (oneSampler () 10 (1/2)).1 10 = ((oneSampler () 10 (1/2)).1 : ℚ) / 10 ↔
      ((oneSampler () 10 (1/2)).1 = 0 ∨ (oneSampler () 10 (1/2)).1 = 5 ∨
        (oneSampler () 10 (1/2)).1 = 10)) :=
  claim_C7 oneSampler oneSampler_spec ()

theorem claim_C8_witness : 10000000 ∈ n_values true ∧ 0 < 10000000 :=
  ⟨by decide, claim_C8 true 10000000 (by decide)⟩

theorem claim_C10_witness :
    run_seeded oneSampler (fun _ : ℤ => ()) 42 (1/2) false
      = run_seeded oneSampler (fun _ : ℤ => ()) 42 (1/2) false :=
  claim_C10 oneSampler (fun _ : ℤ => ()) 42 42 (1/2) (1/2) false false rfl rfl rfl
